import Mathlib

/-!
Shallow embedding of the barcode-region detector in `src/main.rs`.

The program scans a grayscale image in a grid of tiles: per horizontal band
(height `section_height = 100`) and per tile-column it reads the band's
central scanline, binarizes it at luminance 128, scores it by the sum of
the magnitudes of all DFT coefficients except coefficient 0, thresholds
that score at `threshold = 50.0`, and aggregates runs of at least
`consecutive_threshold = 5` consecutive nonzero scores into barcode
regions.  The constants are modelled as parameters, with the program's
defaults recorded here.

Machine floats are modelled exactly: scanline samples as `ℕ` (u8 values),
binarized samples and scores as `ℝ`, the FFT as the mathematical DFT over
`ℂ`.  The region-aggregation loop is polymorphic in the score type (the
program only compares scores against `0.0`), so its claims are settled
over `ℚ`, where every step is decidable; the full pipeline instantiates
it at `ℝ`.
-/

namespace BarDec

/-- A barcode region `(x_start, x_end, y_start, y_end)`, the tuple pushed
onto `barcode_regions` in `main.rs`. -/
structure Region where
  x_start : ℕ
  x_end : ℕ
  y_start : ℕ
  y_end : ℕ
  deriving DecidableEq, Repr

/-- The region-aggregation loop of `main.rs` (lines 85-121): walk the score
row left to right carrying `consecutive_count` and `start_index`; on a score
`> 0.0` record the start if the count was `0`, increment the count, and
whenever the count is at least `k` (`consecutive_threshold`) emit the region
`(start * sw, (i + 1) * sw, ys, ye)`; on a score `≤ 0.0` reset both.
`i` is the current column index, `c` the running count, `st` the start. -/
def aggregateAux {α : Type} [LinearOrder α] [Zero α] (k sw ys ye : ℕ) :
    List α → ℕ → ℕ → Option ℕ → List Region
  | [], _, _, _ => []
  | m :: rest, i, c, st =>
    if 0 < m then
      (if k ≤ c + 1 then
        match (if c = 0 then some i else st) with
        | some s => [⟨s * sw, (i + 1) * sw, ys, ye⟩]
        | none => []
      else ([] : List Region)) ++
        aggregateAux k sw ys ye rest (i + 1) (c + 1) (if c = 0 then some i else st)
    else
      aggregateAux k sw ys ye rest (i + 1) 0 none

/-- The Region Aggregator: the loop started with column `0`, count `0` and
no recorded start, exactly as `main.rs` enters it for each band. -/
def aggregate {α : Type} [LinearOrder α] [Zero α] (k sw ys ye : ℕ)
    (scores : List α) : List Region :=
  aggregateAux k sw ys ye scores 0 0 none

/-- The regions the loop emits while consuming `L` further positive scores,
starting at column `i` with running count `c` and recorded start `s`. -/
def runEmits (k sw ys ye s : ℕ) : ℕ → ℕ → ℕ → List Region
  | _, _, 0 => []
  | i, c, L + 1 =>
    (if k ≤ c + 1 then [⟨s * sw, (i + 1) * sw, ys, ye⟩] else []) ++
      runEmits k sw ys ye s (i + 1) (c + 1) L

/-- The regions a single maximal run of `L` positive scores starting at
column `s` contributes: one region per column from the `k`-th of the run on,
all sharing `x_start = s * sw`, with `x_end` growing by `sw` each time. -/
def singleRunRegions (k sw ys ye s L : ℕ) : List Region :=
  (List.range (L + 1 - k)).map (fun u => ⟨s * sw, (s + k + u) * sw, ys, ye⟩)

/-- The image the program reads: width, height and an 8-bit luminance
sample per pixel coordinate (`img.to_luma8()` in `main.rs`). -/
structure GrayImage where
  width : ℕ
  height : ℕ
  pixel : ℕ → ℕ → ℕ

/-- `img.get_pixel(x, y)[0]` of the `image` crate: the luminance sample,
or `none` for the out-of-bounds panic branch. -/
def get_pixel (img : GrayImage) (x y : ℕ) : Option ℕ :=
  if x < img.width ∧ y < img.height then some (img.pixel x y) else none

/-- Collect the samples of a scanline, failing if any single read fails,
as the `(0..section_width).map(...).collect()` loop does. -/
def collectLine (f : ℕ → Option ℕ) : List ℕ → Option (List ℕ)
  | [] => some []
  | x :: xs =>
    match f x, collectLine f xs with
    | some v, some vs => some (v :: vs)
    | _, _ => none

/-- The Scanline Extractor with checked pixel reads (`section_line` in
`main.rs`, lines 50-54): the `sw` samples of the row at the band's vertical
midpoint `y_start + sh / 2`, columns `x_start ..< x_start + sw`. -/
def section_line (img : GrayImage) (x_start y_start sh sw : ℕ) :
    Option (List ℕ) :=
  collectLine (fun x => get_pixel img (x_start + x) (y_start + sh / 2))
    (List.range sw)

/-- The same scanline with unchecked reads; `c9_scanline_in_bounds` shows
both agree under the grid geometry, so the panic branch is unreachable. -/
def section_line_total (img : GrayImage) (x_start y_start sh sw : ℕ) :
    List ℕ :=
  (List.range sw).map (fun x => img.pixel (x_start + x) (y_start + sh / 2))

/-- Binarization (`binary_line` in `main.rs`): sample `p` becomes `1.0`
when `p > 128`, else `0.0`. -/
noncomputable def binary_line (line : List ℕ) : List ℝ :=
  line.map (fun pixel => if 128 < pixel then 1 else 0)

/-- Coefficient `k` of the forward DFT of the scanline, the mathematical
content of `rustfft`'s `plan_fft_forward(input.len()).process(&mut input)`:
`X_k = Σ_j x_j · exp(-2πi·j·k/n)` with transform length `n = x.length`. -/
noncomputable def dft (x : List ℝ) (k : ℕ) : ℂ :=
  ∑ j in Finset.range x.length,
    (x.getD j 0 : ℂ) *
      Complex.exp (-(2 * (Real.pi : ℂ) * Complex.I * j * k) / x.length)

/-- The raw score (`section_magnitude` in `main.rs`): the sum of the
magnitudes `sqrt(re² + im²)` of all DFT coefficients, skipping
coefficient 0. -/
noncomputable def section_magnitude (x : List ℝ) : ℝ :=
  ∑ k in Finset.Ico 1 x.length, Complex.abs (dft x k)

/-- Thresholding: the column's score is the raw score when it exceeds
`threshold` (program default `50.0`), else exactly `0.0`. -/
noncomputable def section_score (line : List ℕ) (threshold : ℝ) : ℝ :=
  if threshold < section_magnitude (binary_line line) then
    section_magnitude (binary_line line)
  else 0

/-- One band's Score Row: column `i` of band `j` covers
`x_start = i * (W / num_cols)` with tile width `W / num_cols`
(`section_width` in `main.rs`; `num_cols = num_sections_width = 60`,
`th = section_height = 100` in the program). -/
noncomputable def band_scores (img : GrayImage) (num_cols th : ℕ)
    (threshold : ℝ) (j : ℕ) : List ℝ :=
  (List.range num_cols).map (fun i =>
    section_score
      (section_line_total img (i * (img.width / num_cols)) (j * th) th
        (img.width / num_cols))
      threshold)

/-- The regions band `j` contributes: the aggregator run over the band's
Score Row with the band's vertical extent `j*th ..< j*th + th`. -/
noncomputable def band_regions (img : GrayImage) (num_cols th : ℕ)
    (threshold : ℝ) (k j : ℕ) : List Region :=
  aggregate k (img.width / num_cols) (j * th) (j * th + th)
    (band_scores img num_cols th threshold j)

/-- All Score Rows, one per band, bands `0 ..< H / th` top to bottom. -/
noncomputable def score_rows (img : GrayImage) (num_cols th : ℕ)
    (threshold : ℝ) : List (List ℝ) :=
  (List.range (img.height / th)).map (band_scores img num_cols th threshold)

/-- The accumulated region list of the whole scan (`barcode_regions` in
`main.rs`), band-major as the program pushes them. -/
noncomputable def barcode_regions (img : GrayImage) (num_cols th : ℕ)
    (threshold : ℝ) (k : ℕ) : List Region :=
  (List.range (img.height / th)).flatMap
    (band_regions img num_cols th threshold k)

/-- The primitive root the DFT is built from: `exp(-2πik/n)`. -/
noncomputable def expUnit (n k : ℕ) : ℂ :=
  Complex.exp (-(2 * (Real.pi : ℂ) * Complex.I * k) / n)

/-- A synthetic scanline alternating 255/0 at the Nyquist frequency of a
tile of width `n`. -/
def altLine (n : ℕ) : List ℕ :=
  (List.range n).map (fun j => if j % 2 = 0 then 255 else 0)

/-- Concrete 120×100 image for settling claim C7's column-count formula. -/
def cimg7 : GrayImage := ⟨120, 100, fun _ _ => 0⟩

/-- Concrete 102×100 image whose single band and single column carry the
Nyquist-alternating scanline, hence one emitted region; used for C8. -/
def cimg8 : GrayImage := ⟨102, 100, fun x _ => if x % 2 = 0 then 255 else 0⟩

/-- Concrete 2×2 image for the scanline-bounds witness of claim C9. -/
def cimg9 : GrayImage := ⟨2, 2, fun _ _ => 7⟩

variable {α : Type} [LinearOrder α] [Zero α]

theorem aggregateAux_zeros_drop (k sw ys ye : ℕ) (zs : List α)
    (hzs : ∀ x ∈ zs, ¬0 < x) :
    ∀ (rest : List α) (i : ℕ),
      aggregateAux k sw ys ye (zs ++ rest) i 0 none =
        aggregateAux k sw ys ye rest (i + zs.length) 0 none := by
  induction zs with
  | nil => intro rest i; simp
  | cons z zs ih =>
    intro rest i
    have hz : ¬0 < z := hzs z (by simp)
    simp only [List.cons_append, aggregateAux, if_neg hz, List.append_eq]
    rw [ih (fun x hx => hzs x (by simp [hx])) rest (i + 1)]
    congr 1
    simp only [List.length_cons]
    omega

theorem aggregateAux_zeros_nil (k sw ys ye : ℕ) (zs : List α)
    (hzs : ∀ x ∈ zs, ¬0 < x) :
    ∀ (i c : ℕ) (st : Option ℕ), aggregateAux k sw ys ye zs i c st = [] := by
  induction zs with
  | nil => intro i c st; rfl
  | cons z zs ih =>
    intro i c st
    have hz : ¬0 < z := hzs z (by simp)
    simp only [aggregateAux, if_neg hz]
    exact ih (fun x hx => hzs x (by simp [hx])) _ _ _

theorem aggregateAux_run_cont (k sw ys ye : ℕ) (ps : List α)
    (hps : ∀ x ∈ ps, 0 < x) :
    ∀ (rest : List α) (i c s : ℕ), 1 ≤ c →
      aggregateAux k sw ys ye (ps ++ rest) i c (some s) =
        runEmits k sw ys ye s i c ps.length ++
          aggregateAux k sw ys ye rest (i + ps.length) (c + ps.length) (some s) := by
  induction ps with
  | nil => intro rest i c s _; simp [runEmits]
  | cons p ps ih =>
    intro rest i c s hc
    have hp : 0 < p := hps p (by simp)
    have hc0 : ¬c = 0 := by omega
    simp only [List.cons_append, aggregateAux, if_pos hp, if_neg hc0,
      List.append_eq]
    rw [ih (fun x hx => hps x (by simp [hx])) rest (i + 1) (c + 1) s (by omega)]
    simp only [runEmits, List.length_cons, List.append_assoc]
    rw [(by omega : i + (ps.length + 1) = i + 1 + ps.length),
      (by omega : c + (ps.length + 1) = c + 1 + ps.length)]

theorem region_cons_map_eq (sw ys ye s a b : ℕ) (f g : ℕ → ℕ) (L : ℕ)
    (hab : a = b) (hfg : ∀ u, f u = g u) :
    (⟨s * sw, a * sw, ys, ye⟩ : Region) ::
        (List.range L).map (fun u => (⟨s * sw, f u * sw, ys, ye⟩ : Region)) =
      (⟨s * sw, b * sw, ys, ye⟩ : Region) ::
        (List.range L).map (fun u => (⟨s * sw, g u * sw, ys, ye⟩ : Region)) := by
  subst hab
  exact congrArg _ (List.map_congr_left fun u _ =>
    congrArg (fun t => (⟨s * sw, t * sw, ys, ye⟩ : Region)) (hfg u))

theorem runEmits_of_le (k sw ys ye s : ℕ) :
    ∀ (L i c : ℕ), k ≤ c →
      runEmits k sw ys ye s i c L =
        (List.range L).map (fun u => ⟨s * sw, (i + u + 1) * sw, ys, ye⟩) := by
  intro L
  induction L with
  | zero => intro i c _; simp [runEmits]
  | succ L ih =>
    intro i c hc
    rw [runEmits, if_pos (by omega), ih (i + 1) (c + 1) (by omega),
      List.range_succ_eq_map, List.map_cons, List.map_map]
    simp only [List.singleton_append, Function.comp]
    exact region_cons_map_eq sw ys ye s _ _ _ _ L (by omega) (fun u => by omega)

theorem runEmits_of_lt (k sw ys ye s : ℕ) :
    ∀ (L c : ℕ), c < k →
      runEmits k sw ys ye s (s + c) c L =
        (List.range (c + L + 1 - k)).map
          (fun u => ⟨s * sw, (s + k + u) * sw, ys, ye⟩) := by
  intro L
  induction L with
  | zero =>
    intro c hc
    rw [runEmits, (by omega : c + 0 + 1 - k = 0)]
    simp
  | succ L ih =>
    intro c hc
    by_cases hk : k ≤ c + 1
    · rw [runEmits, if_pos hk,
        runEmits_of_le k sw ys ye s L (s + c + 1) (c + 1) (by omega),
        (by omega : c + (L + 1) + 1 - k = L + 1),
        List.range_succ_eq_map, List.map_cons, List.map_map]
      simp only [List.singleton_append, Function.comp]
      exact region_cons_map_eq sw ys ye s _ _ _ _ L (by omega) (fun u => by omega)
    · rw [runEmits, if_neg hk,
        (by omega : s + c + 1 = s + (c + 1)), ih (c + 1) (by omega),
        (by omega : c + 1 + L + 1 - k = c + (L + 1) + 1 - k)]
      simp

theorem head_run_emits (k sw ys ye s L : ℕ) (hk : 1 ≤ k) :
    (if k ≤ 0 + 1 then [(⟨s * sw, (s + 1) * sw, ys, ye⟩ : Region)] else []) ++
        runEmits k sw ys ye s (s + 1) 1 L =
      singleRunRegions k sw ys ye s (L + 1) := by
  by_cases hk1 : k ≤ 0 + 1
  · have hk1' : k = 1 := by omega
    subst hk1'
    rw [if_pos hk1, runEmits_of_le 1 sw ys ye s L (s + 1) 1 le_rfl,
      singleRunRegions, (by omega : L + 1 + 1 - 1 = L + 1),
      List.range_succ_eq_map, List.map_cons, List.map_map]
    simp only [List.singleton_append, Function.comp]
    exact region_cons_map_eq sw ys ye s _ _ _ _ L (by omega) (fun u => by omega)
  · rw [if_neg hk1, List.nil_append,
      (show s + 1 = s + 1 from rfl), runEmits_of_lt k sw ys ye s L 1 (by omega),
      singleRunRegions, (by omega : 1 + L + 1 - k = L + 1 + 1 - k)]

theorem aggregateAux_fresh_run (k sw ys ye : ℕ) (p : α) (ps rest : List α)
    (s : ℕ) (hk : 1 ≤ k) (hp : 0 < p) (hps : ∀ x ∈ ps, 0 < x) :
    aggregateAux k sw ys ye ((p :: ps) ++ rest) s 0 none =
      singleRunRegions k sw ys ye s (ps.length + 1) ++
        aggregateAux k sw ys ye rest (s + ps.length + 1) (ps.length + 1) (some s) := by
  simp only [List.cons_append, aggregateAux, if_pos hp, if_true, List.append_eq,
    reduceIte]
  rw [aggregateAux_run_cont k sw ys ye ps hps rest (s + 1) 1 s le_rfl,
    ← List.append_assoc, head_run_emits k sw ys ye s ps.length hk,
    (by omega : s + 1 + ps.length = s + ps.length + 1),
    (by omega : 1 + ps.length = ps.length + 1)]

theorem aggregate_single_run (k sw ys ye : ℕ) (z1 run z2 : List α)
    (hk : 1 ≤ k) (hz1 : ∀ x ∈ z1, ¬0 < x) (hrun : ∀ x ∈ run, 0 < x)
    (hz2 : ∀ x ∈ z2, ¬0 < x) :
    aggregate k sw ys ye (z1 ++ run ++ z2) =
      singleRunRegions k sw ys ye z1.length run.length := by
  rw [aggregate, List.append_assoc,
    aggregateAux_zeros_drop k sw ys ye z1 hz1 (run ++ z2) 0]
  cases run with
  | nil =>
    rw [List.nil_append, aggregateAux_zeros_nil k sw ys ye z2 hz2,
      singleRunRegions, List.length_nil, (by omega : 0 + 1 - k = 0)]
    rfl
  | cons p ps =>
    rw [aggregateAux_fresh_run k sw ys ye p ps z2 (0 + z1.length) hk
        (hrun p (by simp)) (fun x hx => hrun x (by simp [hx])),
      aggregateAux_zeros_nil k sw ys ye z2 hz2, List.append_nil,
      (by omega : (0:ℕ) + z1.length = z1.length)]
    rfl

theorem aggregate_two_runs (k sw ys ye : ℕ) (z1 : List α) (p : α) (ps : List α)
    (z : α) (zmid : List α) (q : α) (qs z2 : List α) (hk : 1 ≤ k)
    (hz1 : ∀ x ∈ z1, ¬0 < x) (hp : 0 < p) (hps : ∀ x ∈ ps, 0 < x)
    (hz : ¬0 < z) (hzmid : ∀ x ∈ zmid, ¬0 < x) (hq : 0 < q)
    (hqs : ∀ x ∈ qs, 0 < x) (hz2 : ∀ x ∈ z2, ¬0 < x) :
    aggregate k sw ys ye (z1 ++ (p :: ps) ++ (z :: zmid) ++ (q :: qs) ++ z2) =
      singleRunRegions k sw ys ye z1.length (ps.length + 1) ++
        singleRunRegions k sw ys ye (z1.length + ps.length + 2 + zmid.length)
          (qs.length + 1) := by
  rw [aggregate, List.append_assoc, List.append_assoc, List.append_assoc,
    aggregateAux_zeros_drop k sw ys ye z1 hz1 _ 0,
    aggregateAux_fresh_run k sw ys ye p ps _ (0 + z1.length) hk hp hps]
  congr 1
  · rw [(by omega : (0:ℕ) + z1.length = z1.length)]
  simp only [List.cons_append, aggregateAux, if_neg hz, List.append_eq]
  rw [aggregateAux_zeros_drop k sw ys ye zmid hzmid _ _, ← List.cons_append,
    aggregateAux_fresh_run k sw ys ye q qs z2 _ hk hq hqs,
    aggregateAux_zeros_nil k sw ys ye z2 hz2, List.append_nil,
    (by omega : 0 + z1.length + ps.length + 1 + 1 + zmid.length =
      z1.length + ps.length + 2 + zmid.length)]

theorem length_singleRunRegions (k sw ys ye s L : ℕ) :
    (singleRunRegions k sw ys ye s L).length = L + 1 - k := by
  simp [singleRunRegions]

theorem mem_singleRunRegions (k sw ys ye s L : ℕ) (r : Region)
    (hr : r ∈ singleRunRegions k sw ys ye s L) :
    r.x_start = s * sw ∧ r.x_end ≤ (s + L) * sw ∧ r.y_start = ys ∧
      r.y_end = ye := by
  simp only [singleRunRegions, List.mem_map, List.mem_range] at hr
  obtain ⟨u, hu, rfl⟩ := hr
  refine ⟨rfl, ?_, rfl, rfl⟩
  exact Nat.mul_le_mul_right sw (by omega)

theorem chain'_range_map_region (R : Region → Region → Prop) (f : ℕ → Region) :
    ∀ (n : ℕ), (∀ i, R (f i) (f (i + 1))) →
      List.Chain' R ((List.range n).map f) := by
  intro n
  induction n generalizing f with
  | zero => intro _; simp
  | succ n ih =>
    intro h
    rw [List.range_succ_eq_map, List.map_cons, List.map_map]
    rcases n with _ | n
    · simp
    · rw [List.chain'_cons']
      refine ⟨?_, ih (f ∘ Nat.succ) (fun i => h (i + 1))⟩
      intro y hy
      rw [List.range_succ_eq_map] at hy
      simp only [List.map_cons, List.map_map, List.head?_cons,
        Option.mem_def, Option.some.injEq] at hy
      rw [← hy]
      exact h 0

theorem mem_aggregateAux (k sw ys ye : ℕ) :
    ∀ (scores : List α) (i c : ℕ) (st : Option ℕ)
      (hst : ∀ s, st = some s → s ≤ i) (r : Region),
      r ∈ aggregateAux k sw ys ye scores i c st →
      r.y_start = ys ∧ r.y_end = ye ∧
        ∃ s idx, s ≤ idx ∧ idx < i + scores.length ∧
          r.x_start = s * sw ∧ r.x_end = (idx + 1) * sw := by
  intro scores
  induction scores with
  | nil => intro i c st _ r hr; simp [aggregateAux] at hr
  | cons m rest ih =>
    intro i c st hst r hr
    have hst' : ∀ s, (if c = 0 then some i else st) = some s → s ≤ i + 1 := by
      intro s hs
      by_cases hc0 : c = 0
      · rw [if_pos hc0] at hs
        simp only [Option.some.injEq] at hs
        omega
      · rw [if_neg hc0] at hs
        exact le_trans (hst s hs) (by omega)
    have bump : ∀ r : Region,
        (r.y_start = ys ∧ r.y_end = ye ∧
          ∃ s idx, s ≤ idx ∧ idx < i + 1 + rest.length ∧
            r.x_start = s * sw ∧ r.x_end = (idx + 1) * sw) →
        r.y_start = ys ∧ r.y_end = ye ∧
          ∃ s idx, s ≤ idx ∧ idx < i + (m :: rest).length ∧
            r.x_start = s * sw ∧ r.x_end = (idx + 1) * sw := by
      rintro r' ⟨h1, h2, s, idx, h3, h4, h5, h6⟩
      exact ⟨h1, h2, s, idx, h3, by simp only [List.length_cons]; omega, h5, h6⟩
    by_cases hm : 0 < m
    · rw [aggregateAux, if_pos hm] at hr
      rcases List.mem_append.mp hr with hr | hr
      · by_cases hkc : k ≤ c + 1
        · rw [if_pos hkc] at hr
          rcases hsome : (if c = 0 then some i else st) with _ | s
          · rw [hsome] at hr
            simp at hr
          · rw [hsome] at hr
            simp only [List.mem_singleton] at hr
            subst hr
            have hsle : s ≤ i := by
              by_cases hc0 : c = 0
              · rw [if_pos hc0] at hsome
                simp only [Option.some.injEq] at hsome
                omega
              · rw [if_neg hc0] at hsome
                exact hst s hsome
            exact ⟨rfl, rfl, s, i, hsle, by simp, rfl, rfl⟩
        · rw [if_neg hkc] at hr
          simp at hr
      · exact bump r (ih (i + 1) (c + 1) _ hst' r hr)
    · rw [aggregateAux, if_neg hm] at hr
      exact bump r (ih (i + 1) 0 none (by simp) r hr)

/-- Claim C1: for the Score Row `[0,0,0,5,6,7,8,9,0,0]` and minimum-run
threshold `k = 5`, the Region Aggregator emits exactly one region, with
`x_start = 3 * tile_w` and `x_end = 8 * tile_w`; its `x_end = (7+1)*tile_w`
records that it is emitted at column index 7, where the run of columns
3..7 first reaches length 5. -/
theorem c1_example_row (sw ys ye : ℕ) :
    aggregate 5 sw ys ye ([0, 0, 0, 5, 6, 7, 8, 9, 0, 0] : List ℚ) =
      [⟨3 * sw, 8 * sw, ys, ye⟩] := by
  norm_num [aggregate, aggregateAux]

/-- Claim C4: once a run of consecutive positive scores reaches length
`k`, the aggregator emits an additional region on every further column of
the run: for a single maximal run of length `L > k` the output has exactly
`L + 1 - k` regions, hence more than one, each sharing the previous
region's `x_start` and growing its `x_end` by one tile width. -/
theorem c4_reemission (k sw ys ye : ℕ) (z1 run z2 : List ℚ) (hk : 1 ≤ k)
    (hsw : 1 ≤ sw) (hz1 : ∀ x ∈ z1, ¬0 < x) (hrun : ∀ x ∈ run, 0 < x)
    (hz2 : ∀ x ∈ z2, ¬0 < x) (hL : k < run.length) :
    (aggregate k sw ys ye (z1 ++ run ++ z2)).length = run.length + 1 - k ∧
      1 < (aggregate k sw ys ye (z1 ++ run ++ z2)).length ∧
      List.Chain'
        (fun a b => b.x_start = a.x_start ∧ b.x_end = a.x_end + sw ∧
          a.x_end < b.x_end)
        (aggregate k sw ys ye (z1 ++ run ++ z2)) := by
  rw [aggregate_single_run k sw ys ye z1 run z2 hk hz1 hrun hz2]
  refine ⟨length_singleRunRegions k sw ys ye z1.length run.length, ?_, ?_⟩
  · rw [length_singleRunRegions]
    omega
  · refine chain'_range_map_region _ _ _ (fun i => ?_)
    dsimp only
    refine ⟨rfl, by ring, ?_⟩
    have h : (z1.length + k + (i + 1)) * sw = (z1.length + k + i) * sw + sw := by
      ring
    rw [h]
    omega

theorem c4_reemission_witness :
    (aggregate 5 1 0 100 ([1, 1, 1, 1, 1, 1] : List ℚ)).length = 2 ∧
      1 < (aggregate 5 1 0 100 ([1, 1, 1, 1, 1, 1] : List ℚ)).length ∧
      List.Chain'
        (fun a b => b.x_start = a.x_start ∧ b.x_end = a.x_end + 1 ∧
          a.x_end < b.x_end)
        (aggregate 5 1 0 100 ([1, 1, 1, 1, 1, 1] : List ℚ)) :=
  c4_reemission 5 1 0 100 [] [1, 1, 1, 1, 1, 1] [] (by decide) (by decide)
    (by decide) (by decide) (by decide) (by decide)

/-- Claim C5: for a Score Row holding a single maximal run of consecutive
positive scores, a run of length exactly `k - 1` yields no region and a
run of length exactly `k` yields exactly one region. -/
theorem c5_boundary (k sw ys ye : ℕ) (z1 run z2 : List ℚ) (hk : 1 ≤ k)
    (hz1 : ∀ x ∈ z1, ¬0 < x) (hrun : ∀ x ∈ run, 0 < x)
    (hz2 : ∀ x ∈ z2, ¬0 < x) :
    (run.length = k - 1 → aggregate k sw ys ye (z1 ++ run ++ z2) = []) ∧
      (run.length = k →
        (aggregate k sw ys ye (z1 ++ run ++ z2)).length = 1) := by
  rw [aggregate_single_run k sw ys ye z1 run z2 hk hz1 hrun hz2]
  constructor
  · intro hL
    rw [singleRunRegions, (by omega : run.length + 1 - k = 0)]
    rfl
  · intro hL
    rw [length_singleRunRegions]
    omega

theorem c5_boundary_witness :
    (([1, 1, 1, 1] : List ℚ).length = 4 →
        aggregate 5 1 0 100 ([1, 1, 1, 1] : List ℚ) = []) ∧
      (([1, 1, 1, 1] : List ℚ).length = 5 →
        (aggregate 5 1 0 100 ([1, 1, 1, 1] : List ℚ)).length = 1) :=
  c5_boundary 5 1 0 100 [] [1, 1, 1, 1] [] (by decide) (by decide) (by decide)
    (by decide)

/-- Claim C10: within a single maximal run all emitted regions share
`x_start = start * tile_w`, successive regions' `x_end` grow by exactly
`tile_w` (strictly increasing, so each nests the previous), and a run of
length `L` emits exactly `max 0 (L - k + 1)` regions. -/
theorem c10_single_run_shape (k sw ys ye : ℕ) (z1 run z2 : List ℚ)
    (hk : 1 ≤ k) (hsw : 1 ≤ sw) (hz1 : ∀ x ∈ z1, ¬0 < x)
    (hrun : ∀ x ∈ run, 0 < x) (hz2 : ∀ x ∈ z2, ¬0 < x) :
    List.Forall (fun r => r.x_start = z1.length * sw)
        (aggregate k sw ys ye (z1 ++ run ++ z2)) ∧
      List.Chain' (fun a b => b.x_end = a.x_end + sw ∧ a.x_end < b.x_end)
        (aggregate k sw ys ye (z1 ++ run ++ z2)) ∧
      ((aggregate k sw ys ye (z1 ++ run ++ z2)).length : ℤ) =
        max 0 ((run.length : ℤ) - k + 1) := by
  rw [aggregate_single_run k sw ys ye z1 run z2 hk hz1 hrun hz2]
  refine ⟨?_, ?_, ?_⟩
  · rw [List.forall_iff_forall_mem]
    intro r hr
    exact (mem_singleRunRegions k sw ys ye z1.length run.length r hr).1
  · refine chain'_range_map_region _ _ _ (fun i => ?_)
    dsimp only
    refine ⟨by ring, ?_⟩
    have h : (z1.length + k + (i + 1)) * sw = (z1.length + k + i) * sw + sw := by
      ring
    rw [h]
    omega
  · rw [length_singleRunRegions]
    omega

theorem c10_single_run_shape_witness :
    List.Forall (fun r => r.x_start = 0)
        (aggregate 5 1 0 100 ([1, 1, 1, 1, 1, 1] : List ℚ)) ∧
      List.Chain' (fun a b => b.x_end = a.x_end + 1 ∧ a.x_end < b.x_end)
        (aggregate 5 1 0 100 ([1, 1, 1, 1, 1, 1] : List ℚ)) ∧
      ((aggregate 5 1 0 100 ([1, 1, 1, 1, 1, 1] : List ℚ)).length : ℤ) =
        max 0 ((([1, 1, 1, 1, 1, 1] : List ℚ).length : ℤ) - 5 + 1) :=
  c10_single_run_shape 5 1 0 100 [] [1, 1, 1, 1, 1, 1] [] (by decide)
    (by decide) (by decide) (by decide) (by decide)

/-- Claim C6 counterexample: the Score Row
`[1,1,1,1,1,1,0,1,1,1,1,1]` has two separated runs of lengths 6 and 5,
both at least `k = 5`, yet the aggregator emits three regions, not one
region per run. -/
theorem c6_counterexample :
    (aggregate 5 1 0 100
        ([1, 1, 1, 1, 1, 1, 0, 1, 1, 1, 1, 1] : List ℚ)).length = 3 ∧
      ¬(aggregate 5 1 0 100
          ([1, 1, 1, 1, 1, 1, 0, 1, 1, 1, 1, 1] : List ℚ)).length = 2 := by
  decide

/-- Claim C6 (amended): for two maximal runs separated by at least one
zero, each of length at least `k`, the output is the first run's regions
followed by the second run's regions, at least one region per run, and
every emitted region lies within a single run's horizontal extent — no
region spans both runs. -/
theorem c6_two_separated_runs (k sw ys ye : ℕ) (z1 : List ℚ) (p : ℚ)
    (ps : List ℚ) (z : ℚ) (zmid : List ℚ) (q : ℚ) (qs z2 : List ℚ)
    (hk : 1 ≤ k) (hz1 : ∀ x ∈ z1, ¬0 < x) (hp : 0 < p)
    (hps : ∀ x ∈ ps, 0 < x) (hz : ¬0 < z) (hzmid : ∀ x ∈ zmid, ¬0 < x)
    (hq : 0 < q) (hqs : ∀ x ∈ qs, 0 < x) (hz2 : ∀ x ∈ z2, ¬0 < x)
    (hL1 : k ≤ ps.length + 1) (hL2 : k ≤ qs.length + 1) :
    aggregate k sw ys ye (z1 ++ (p :: ps) ++ (z :: zmid) ++ (q :: qs) ++ z2) =
        singleRunRegions k sw ys ye z1.length (ps.length + 1) ++
          singleRunRegions k sw ys ye (z1.length + ps.length + 2 + zmid.length)
            (qs.length + 1) ∧
      0 < (singleRunRegions k sw ys ye z1.length (ps.length + 1)).length ∧
      0 < (singleRunRegions k sw ys ye
            (z1.length + ps.length + 2 + zmid.length) (qs.length + 1)).length ∧
      List.Forall (fun r =>
          (r.x_start = z1.length * sw ∧
            r.x_end ≤ (z1.length + (ps.length + 1)) * sw) ∨
          (r.x_start = (z1.length + ps.length + 2 + zmid.length) * sw ∧
            r.x_end ≤ (z1.length + ps.length + 2 + zmid.length +
              (qs.length + 1)) * sw))
        (aggregate k sw ys ye
          (z1 ++ (p :: ps) ++ (z :: zmid) ++ (q :: qs) ++ z2)) := by
  have hmain := aggregate_two_runs k sw ys ye z1 p ps z zmid q qs z2 hk hz1 hp
    hps hz hzmid hq hqs hz2
  refine ⟨hmain, ?_, ?_, ?_⟩
  · rw [length_singleRunRegions]
    omega
  · rw [length_singleRunRegions]
    omega
  · rw [List.forall_iff_forall_mem]
    intro r hr
    rw [hmain] at hr
    rcases List.mem_append.mp hr with hr | hr
    · obtain ⟨h1, h2, _, _⟩ := mem_singleRunRegions _ _ _ _ _ _ r hr
      exact Or.inl ⟨h1, h2⟩
    · obtain ⟨h1, h2, _, _⟩ := mem_singleRunRegions _ _ _ _ _ _ r hr
      exact Or.inr ⟨h1, h2⟩

theorem c6_two_separated_runs_witness :
    aggregate 5 1 0 100 ([1, 1, 1, 1, 1, 0, 1, 1, 1, 1, 1] : List ℚ) =
        singleRunRegions 5 1 0 100 0 5 ++ singleRunRegions 5 1 0 100 6 5 ∧
      0 < (singleRunRegions 5 1 0 100 0 5).length ∧
      0 < (singleRunRegions 5 1 0 100 6 5).length ∧
      List.Forall (fun r =>
          (r.x_start = 0 ∧ r.x_end ≤ 5) ∨ (r.x_start = 6 ∧ r.x_end ≤ 11))
        (aggregate 5 1 0 100 ([1, 1, 1, 1, 1, 0, 1, 1, 1, 1, 1] : List ℚ)) :=
  c6_two_separated_runs 5 1 0 100 [] 1 [1, 1, 1, 1] 0 [] 1 [1, 1, 1, 1] []
    (by decide) (by decide) (by decide) (by decide) (by decide) (by decide)
    (by decide) (by decide) (by decide) (by decide) (by decide)

theorem collectLine_eq_map (f : ℕ → Option ℕ) (g : ℕ → ℕ) :
    ∀ (l : List ℕ), (∀ x ∈ l, f x = some (g x)) →
      collectLine f l = some (l.map g) := by
  intro l
  induction l with
  | nil => intro _; rfl
  | cons x xs ih =>
    intro h
    rw [collectLine, h x (by simp), ih (fun y hy => h y (by simp [hy]))]
    rfl

/-- Claim C9: under the grid geometry (`tile_w = W / num_cols`,
`num_rows = H / tile_h`, band index `j < num_rows`, column index
`i < num_cols`), every pixel read of the Scanline Extractor is in bounds:
the checked extraction succeeds and equals the unchecked one, so the
out-of-bounds panic branch of `get_pixel` is unreachable. -/
theorem c9_scanline_in_bounds (img : GrayImage) (num_cols th i j : ℕ)
    (hth : 1 ≤ th) (hi : i < num_cols) (hj : j < img.height / th) :
    section_line img (i * (img.width / num_cols)) (j * th) th
        (img.width / num_cols) =
      some (section_line_total img (i * (img.width / num_cols)) (j * th) th
        (img.width / num_cols)) := by
  rw [section_line, section_line_total]
  refine collectLine_eq_map _ _ _ (fun x hx => ?_)
  rw [List.mem_range] at hx
  rw [get_pixel, if_pos]
  constructor
  · have h1 : i * (img.width / num_cols) + x <
        num_cols * (img.width / num_cols) := by
      have : (i + 1) * (img.width / num_cols) ≤
          num_cols * (img.width / num_cols) :=
        Nat.mul_le_mul_right _ (by omega)
      have h2 : i * (img.width / num_cols) + x <
          (i + 1) * (img.width / num_cols) := by
        rw [(by ring : (i + 1) * (img.width / num_cols) =
          i * (img.width / num_cols) + img.width / num_cols)]
        omega
      omega
    calc i * (img.width / num_cols) + x
        < num_cols * (img.width / num_cols) := h1
      _ ≤ img.width := by
          rw [Nat.mul_comm]
          exact Nat.div_mul_le_self _ _
  · have h1 : (j + 1) * th ≤ (img.height / th) * th :=
      Nat.mul_le_mul_right _ (by omega)
    have h2 : (img.height / th) * th ≤ img.height := Nat.div_mul_le_self _ _
    have h3 : th / 2 < th := by omega
    have h4 : j * th + th = (j + 1) * th := by ring
    omega

theorem c9_scanline_in_bounds_witness :
    section_line cimg9 1 1 1 1 = some (section_line_total cimg9 1 1 1 1) :=
  c9_scanline_in_bounds cimg9 2 1 1 1 (by norm_num) (by norm_num)
    (by norm_num [cimg9])

theorem band_scores_length (img : GrayImage) (num_cols th : ℕ)
    (threshold : ℝ) (j : ℕ) :
    (band_scores img num_cols th threshold j).length = num_cols := by
  simp [band_scores]

/-- Claim C7 counterexample: on a 120×100 image with `num_cols = 60` and
`tile_h = 100` the single band's Score Row has length 60 (= `num_cols`),
while `W / num_cols = 2`, so the Score Row length is not `W / num_cols`. -/
theorem c7_counterexample :
    (score_rows cimg7 60 100 50).map List.length = [60] ∧
      cimg7.width / 60 = 2 ∧ (60 : ℕ) ≠ 2 := by
  refine ⟨?_, by norm_num [cimg7], by norm_num⟩
  rw [score_rows, List.map_map]
  have h : cimg7.height / 100 = 1 := by norm_num [cimg7]
  rw [h, List.range_succ, List.range_zero, List.nil_append, List.map_cons,
    List.map_nil, Function.comp_apply, band_scores_length]

/-- Claim C7 (amended): under the claim's grid preconditions
(`num_cols * tile_w ≤ W` and `num_rows * tile_h ≤ H`, which always hold
for the integer divisions `tile_w = W / num_cols`,
`num_rows = H / tile_h`), the scanner processes exactly `H / tile_h`
bands and every Score Row has length `num_cols` — the configured column
count, each tile being `W / num_cols` pixels wide. -/
theorem c7_amended_grid (img : GrayImage) (num_cols th : ℕ) (threshold : ℝ)
    (h1 : num_cols * (img.width / num_cols) ≤ img.width)
    (h2 : (img.height / th) * th ≤ img.height) :
    (score_rows img num_cols th threshold).length = img.height / th ∧
      (score_rows img num_cols th threshold).map List.length =
        List.replicate (img.height / th) num_cols := by
  constructor
  · simp [score_rows]
  · rw [score_rows, List.map_map]
    have : (List.length ∘ band_scores img num_cols th threshold) =
        fun _ => num_cols := by
      funext j
      exact band_scores_length img num_cols th threshold j
    rw [this, List.map_const', List.length_range]

theorem c7_amended_grid_witness :
    (score_rows cimg7 60 100 50).length = cimg7.height / 100 ∧
      (score_rows cimg7 60 100 50).map List.length =
        List.replicate (cimg7.height / 100) 60 :=
  c7_amended_grid cimg7 60 100 50 (by norm_num [cimg7]) (by norm_num [cimg7])

/-- Claim C8: every region ever appended to the region list satisfies
`x_start < x_end`, `y_end - y_start = tile_h`, `0 ≤ x_start` and
`x_end ≤ num_cols * tile_w ≤ W`, assuming `tile_w = W / num_cols ≥ 1`. -/
theorem c8_region_invariants (img : GrayImage) (num_cols th : ℕ)
    (threshold : ℝ) (k : ℕ) (hsw : 1 ≤ img.width / num_cols) (r : Region)
    (hr : r ∈ barcode_regions img num_cols th threshold k) :
    r.x_start < r.x_end ∧ r.y_end - r.y_start = th ∧ 0 ≤ r.x_start ∧
      r.x_end ≤ num_cols * (img.width / num_cols) ∧
      num_cols * (img.width / num_cols) ≤ img.width := by
  rw [barcode_regions, List.mem_flatMap] at hr
  obtain ⟨j, _, hr⟩ := hr
  rw [band_regions, aggregate] at hr
  obtain ⟨h1, h2, s, idx, h3, h4, h5, h6⟩ :=
    mem_aggregateAux k (img.width / num_cols) (j * th) (j * th + th)
      (band_scores img num_cols th threshold j) 0 0 none (by simp) r hr
  rw [band_scores_length] at h4
  refine ⟨?_, by omega, by omega, ?_, ?_⟩
  · rw [h5, h6]
    exact Nat.mul_lt_mul_of_lt_of_le (by omega) le_rfl (by omega)
  · rw [h6]
    exact Nat.mul_le_mul_right _ (by omega)
  · rw [Nat.mul_comm]
    exact Nat.div_mul_le_self _ _

theorem expUnit_pow (n k j : ℕ) :
    expUnit n k ^ j =
      Complex.exp (-(2 * (Real.pi : ℂ) * Complex.I * j * k) / n) := by
  rw [expUnit, ← Complex.exp_nat_mul]
  congr 1
  ring

theorem two_pi_I_ne_zero' : (2 * (Real.pi : ℂ) * Complex.I) ≠ 0 :=
  mul_ne_zero
    (mul_ne_zero two_ne_zero (Complex.ofReal_ne_zero.mpr Real.pi_ne_zero))
    Complex.I_ne_zero

theorem expUnit_eq_one (n k : ℕ) (hn : n ≠ 0) (hd : n ∣ k) :
    expUnit n k = 1 := by
  obtain ⟨t, rfl⟩ := hd
  have hn' : (n : ℂ) ≠ 0 := Nat.cast_ne_zero.mpr hn
  rw [expUnit]
  have harg : -(2 * (Real.pi : ℂ) * Complex.I * (n * t : ℕ)) / n =
      -((t : ℂ) * (2 * (Real.pi : ℂ) * Complex.I)) := by
    push_cast
    field_simp
    ring
  rw [harg, Complex.exp_neg, Complex.exp_nat_mul, Complex.exp_two_pi_mul_I,
    one_pow, inv_one]

theorem dvd_of_expUnit_eq_one (n k : ℕ) (hn : n ≠ 0)
    (h : expUnit n k = 1) : n ∣ k := by
  rw [expUnit, Complex.exp_eq_one_iff] at h
  obtain ⟨t, ht⟩ := h
  have hn' : (n : ℂ) ≠ 0 := Nat.cast_ne_zero.mpr hn
  have key : (2 * (Real.pi : ℂ) * Complex.I) * (k : ℂ) =
      (2 * (Real.pi : ℂ) * Complex.I) * (-(t : ℂ) * n) := by
    field_simp at ht
    linear_combination -ht
  have hk : (k : ℂ) = -(t : ℂ) * n := mul_left_cancel₀ two_pi_I_ne_zero' key
  have hkz : (k : ℤ) = -t * n := by exact_mod_cast hk
  refine Int.natCast_dvd_natCast.mp ⟨-t, ?_⟩
  rw [hkz]
  ring

theorem expUnit_pow_self (n k : ℕ) (hn : n ≠ 0) : expUnit n k ^ n = 1 := by
  have hn' : (n : ℂ) ≠ 0 := Nat.cast_ne_zero.mpr hn
  rw [expUnit_pow]
  have harg : -(2 * (Real.pi : ℂ) * Complex.I * n * k) / n =
      -((k : ℂ) * (2 * (Real.pi : ℂ) * Complex.I)) := by
    field_simp
    ring
  rw [harg, Complex.exp_neg, Complex.exp_nat_mul, Complex.exp_two_pi_mul_I,
    one_pow, inv_one]

theorem sum_pow_eq_zero {q : ℂ} (hq : q ≠ 1) {N : ℕ} (hN : q ^ N = 1) :
    ∑ j in Finset.range N, q ^ j = 0 := by
  rw [geom_sum_eq hq, hN]
  simp

theorem dft_replicate_eq_zero (n : ℕ) (v : ℝ) (k : ℕ) (h1 : 1 ≤ k)
    (h2 : k < n) : dft (List.replicate n v) k = 0 := by
  have hn : n ≠ 0 := by omega
  rw [dft, List.length_replicate]
  have hterm : ∀ j ∈ Finset.range n,
      ((List.replicate n v).getD j 0 : ℂ) *
          Complex.exp (-(2 * (Real.pi : ℂ) * Complex.I * j * k) / n) =
        (v : ℂ) * expUnit n k ^ j := by
    intro j hj
    rw [Finset.mem_range] at hj
    rw [List.getD_eq_getElem _ _ (by simpa using hj), List.getElem_replicate,
      expUnit_pow]
  rw [Finset.sum_congr rfl hterm, ← Finset.mul_sum]
  have hne : expUnit n k ≠ 1 := by
    intro hone
    have := dvd_of_expUnit_eq_one n k hn hone
    have := Nat.le_of_dvd (by omega) this
    omega
  rw [sum_pow_eq_zero hne (expUnit_pow_self n k hn), mul_zero]

/-- Claim C3: for a scanline whose samples are all one constant value, the
binarized line is constant, every DFT coefficient except coefficient 0
is zero, the summed AC energy is zero — not above the threshold 50.0 —
and the column's score is exactly `0.0`. -/
theorem c3_constant_scanline (line : List ℕ) (c : ℕ)
    (hconst : ∀ p ∈ line, p = c) :
    (∀ k, 1 ≤ k → k < line.length → dft (binary_line line) k = 0) ∧
      section_magnitude (binary_line line) = 0 ∧
      section_score line 50 = 0 := by
  have hrep : binary_line line =
      List.replicate line.length (if 128 < c then (1 : ℝ) else 0) := by
    rw [binary_line, List.eq_replicate_of_mem hconst, List.map_replicate,
      List.length_replicate]
  have hdft : ∀ k, 1 ≤ k → k < line.length → dft (binary_line line) k = 0 := by
    intro k hk1 hk2
    rw [hrep]
    exact dft_replicate_eq_zero line.length _ k hk1 hk2
  have hmag : section_magnitude (binary_line line) = 0 := by
    rw [section_magnitude]
    refine Finset.sum_eq_zero (fun k hk => ?_)
    rw [Finset.mem_Ico] at hk
    have hlen : (binary_line line).length = line.length := by
      rw [hrep, List.length_replicate]
    rw [hdft k hk.1 (by omega), map_zero]
  refine ⟨hdft, hmag, ?_⟩
  rw [section_score, hmag, if_neg (by norm_num)]

theorem c3_constant_scanline_witness :
    (∀ k, 1 ≤ k → k < ([7, 7, 7] : List ℕ).length →
        dft (binary_line [7, 7, 7]) k = 0) ∧
      section_magnitude (binary_line [7, 7, 7]) = 0 ∧
      section_score [7, 7, 7] 50 = 0 :=
  c3_constant_scanline [7, 7, 7] 7 (by decide)

theorem binary_line_altLine (n : ℕ) :
    binary_line (altLine n) =
      (List.range n).map (fun j => if j % 2 = 0 then (1 : ℝ) else 0) := by
  rw [binary_line, altLine, List.map_map]
  refine List.map_congr_left (fun j _ => ?_)
  by_cases hj : j % 2 = 0 <;> simp [hj]

theorem sum_even_filter (m : ℕ) (g : ℕ → ℂ) :
    ∑ j in Finset.range (2 * m), (if j % 2 = 0 then g j else 0) =
      ∑ t in Finset.range m, g (2 * t) := by
  induction m with
  | zero => simp
  | succ m ih =>
    rw [(by omega : 2 * (m + 1) = 2 * m + 1 + 1), Finset.sum_range_succ,
      Finset.sum_range_succ, Finset.sum_range_succ, ih,
      (by omega : (2 * m) % 2 = 0), (by omega : (2 * m + 1) % 2 = 1)]
    simp

theorem expUnit_sq (m k : ℕ) (hm : m ≠ 0) :
    expUnit (2 * m) k ^ 2 = expUnit m k := by
  have hm' : (m : ℂ) ≠ 0 := Nat.cast_ne_zero.mpr hm
  rw [expUnit_pow, expUnit]
  congr 1
  push_cast
  field_simp
  ring

theorem dft_alt (m : ℕ) (hm : 1 ≤ m) (k : ℕ) (hk1 : 1 ≤ k)
    (hk2 : k < 2 * m) :
    dft (binary_line (altLine (2 * m))) k =
      if k = m then (m : ℂ) else 0 := by
  have hm0 : m ≠ 0 := by omega
  have hlen : (binary_line (altLine (2 * m))).length = 2 * m := by
    rw [binary_line_altLine, List.length_map, List.length_range]
  rw [dft, hlen]
  have hterm : ∀ j ∈ Finset.range (2 * m),
      ((binary_line (altLine (2 * m))).getD j 0 : ℂ) *
          Complex.exp (-(2 * (Real.pi : ℂ) * Complex.I * j * k) /
            ((2 * m : ℕ) : ℂ)) =
        (if j % 2 = 0 then expUnit (2 * m) k ^ j else 0) := by
    intro j hj
    rw [Finset.mem_range] at hj
    rw [binary_line_altLine, List.getD_eq_getElem _ _ (by simpa using hj)]
    rw [List.getElem_map, List.getElem_range]
    push_cast [apply_ite (fun x : ℝ => (x : ℂ))]
    rw [expUnit_pow]
    by_cases hj2 : j % 2 = 0 <;> simp [hj2]
  rw [Finset.sum_congr rfl hterm,
    sum_even_filter m (fun j => expUnit (2 * m) k ^ j)]
  have hsq : ∀ t, expUnit (2 * m) k ^ (2 * t) = (expUnit m k) ^ t := by
    intro t
    rw [pow_mul, expUnit_sq m k hm0]
  rw [Finset.sum_congr rfl (fun t _ => hsq t)]
  by_cases hkm : k = m
  · subst hkm
    rw [expUnit_eq_one k k hm0 dvd_rfl, if_pos rfl]
    simp
  · rw [if_neg hkm]
    have hne : expUnit m k ≠ 1 := by
      intro hone
      obtain ⟨t, ht⟩ := dvd_of_expUnit_eq_one m k hm0 hone
      rcases t with _ | t
      · omega
      rcases t with _ | t
      · omega
      · have h2m : 2 * m ≤ m * (t + 1 + 1) := by
          calc 2 * m = m * 2 := by ring
            _ ≤ m * (t + 1 + 1) := Nat.mul_le_mul_left m (by omega)
        omega
    exact sum_pow_eq_zero hne (expUnit_pow_self m k hm0)

theorem raw_alt (m : ℕ) (hm : 1 ≤ m) :
    section_magnitude (binary_line (altLine (2 * m))) = m := by
  have hlen : (binary_line (altLine (2 * m))).length = 2 * m := by
    rw [binary_line_altLine, List.length_map, List.length_range]
  rw [section_magnitude, hlen]
  have hterm : ∀ k ∈ Finset.Ico 1 (2 * m),
      Complex.abs (dft (binary_line (altLine (2 * m))) k) =
        if k = m then (m : ℝ) else 0 := by
    intro k hk
    rw [Finset.mem_Ico] at hk
    rw [dft_alt m hm k hk.1 hk.2]
    by_cases hkm : k = m
    · rw [if_pos hkm, if_pos hkm, Complex.abs_natCast]
    · rw [if_neg hkm, if_neg hkm, map_zero]
  rw [Finset.sum_congr rfl hterm, Finset.sum_ite_eq' (Finset.Ico 1 (2 * m)) m
    (fun _ => (m : ℝ)), if_pos (by rw [Finset.mem_Ico]; omega)]

/-- Claim C2 counterexample: for tile width 10 the Nyquist-alternating
scanline's raw high-frequency energy is `5`, which does not exceed the
default threshold `50.0`, so the column's score is `0.0` — refuting the
claim that every tile width `≥ 10` yields energy above 50 and a nonzero
score. -/
theorem c2_counterexample :
    section_magnitude (binary_line (altLine 10)) = 5 ∧
      ¬(50 < section_magnitude (binary_line (altLine 10))) ∧
      section_score (altLine 10) 50 = 0 := by
  have h := raw_alt 5 (by norm_num)
  norm_num at h
  refine ⟨h, by rw [h]; norm_num, ?_⟩
  rw [section_score, h, if_neg (by norm_num)]

/-- Claim C2 (amended): for the Nyquist-alternating scanline of even tile
width `2 * m` (`m ≥ 1`), the raw high-frequency energy is exactly `m`,
hence strictly positive; it exceeds the default threshold `50.0` exactly
when `m > 50`, i.e. for even tile width at least 102, and then the
column's score equals the raw energy and is nonzero. -/
theorem c2_amended_nyquist (m : ℕ) (hm : 1 ≤ m) :
    0 < section_magnitude (binary_line (altLine (2 * m))) ∧
      section_magnitude (binary_line (altLine (2 * m))) = m ∧
      (50 < (m : ℝ) →
        section_score (altLine (2 * m)) 50 = m ∧
          0 < section_score (altLine (2 * m)) 50) := by
  have h := raw_alt m hm
  refine ⟨by rw [h]; exact_mod_cast Nat.pos_of_ne_zero (by omega), h, ?_⟩
  intro h50
  rw [section_score, h, if_pos h50]
  exact ⟨rfl, by linarith⟩

theorem c2_amended_nyquist_witness :
    0 < section_magnitude (binary_line (altLine (2 * 51))) ∧
      section_magnitude (binary_line (altLine (2 * 51))) = ((51 : ℕ) : ℝ) ∧
      (50 < ((51 : ℕ) : ℝ) →
        section_score (altLine (2 * 51)) 50 = ((51 : ℕ) : ℝ) ∧
          0 < section_score (altLine (2 * 51)) 50) :=
  c2_amended_nyquist 51 (by norm_num)

theorem cimg8_line :
    section_line_total cimg8 (0 * (cimg8.width / 1)) (0 * 100) 100
      (cimg8.width / 1) = altLine 102 := by
  rw [section_line_total, altLine]
  refine List.map_congr_left (fun x _ => ?_)
  norm_num [cimg8]

theorem cimg8_band : band_scores cimg8 1 100 50 0 = [(51 : ℝ)] := by
  rw [band_scores, List.range_succ, List.range_zero, List.nil_append,
    List.map_cons, List.map_nil, cimg8_line]
  have h := raw_alt 51 (by norm_num)
  norm_num at h
  rw [section_score, h, if_pos (by norm_num)]

theorem cimg8_regions :
    barcode_regions cimg8 1 100 50 1 = [⟨0, 102, 0, 100⟩] := by
  rw [barcode_regions]
  have hh : cimg8.height / 100 = 1 := by norm_num [cimg8]
  rw [hh, List.range_succ, List.range_zero, List.nil_append]
  rw [List.flatMap_cons, List.flatMap_nil, List.append_nil]
  rw [band_regions, cimg8_band]
  norm_num [aggregate, aggregateAux, cimg8]

theorem c8_region_invariants_witness :
    (0 : ℕ) < 102 ∧ (100 : ℕ) - 0 = 100 ∧ (0 : ℕ) ≤ 0 ∧
      (102 : ℕ) ≤ 102 ∧ (102 : ℕ) ≤ 102 :=
  c8_region_invariants cimg8 1 100 50 1 (by norm_num [cimg8])
    ⟨0, 102, 0, 100⟩ (by rw [cimg8_regions]; exact List.mem_singleton.mpr rfl)

end BarDec
